import Mathlib

/-!
# Verification of the concreteness-scoring program (`concretize.py`)

This file is a shallow embedding of the two core components of the program:

* `compute_text_concreteness` — the scorer: normalizes a raw text value
  (punctuation removal, digit removal, whitespace strip, lowercasing,
  whitespace tokenization) and performs the greedy bigram-then-unigram
  scan, returning the arithmetic mean of collected ratings or the
  sentinel `-1`.
* `build_lexicon` — the dictionary-building loop of `process_text_data`:
  routes each rating row into the unigram or the bigram mapping keyed by
  the lowercased, stripped phrase.

Modelling choices:

* A possibly-non-string cell is `Option String` (`none` = the value is
  not a string, e.g. a missing/NaN cell).
* Ratings are `ℚ` (exact arithmetic in place of Python floats).
* Python dictionaries are association lists with unique keys;
  `Dict.insert` overwrites an existing binding (last write wins) and
  `Dict.lookup` is key lookup.
* The regular-expression character classes `\w`, `\d`, `\s` and
  `str.lower` are modelled at the ASCII level: word characters are
  `[A-Za-z0-9_]`, digits `[0-9]`, whitespace space/tab/CR/LF, and
  lowercasing maps `A`–`Z` to `a`–`z` and fixes every other character.
  All character tests are phrased via `Char.toNat`.
-/

/-- ASCII model of the Python whitespace class `\s`. -/
def isSpaceChar (c : Char) : Bool :=
  c.toNat = 32 || c.toNat = 9 || c.toNat = 13 || c.toNat = 10

/-- ASCII model of the Python digit class `\d`. -/
def isDigitChar (c : Char) : Bool :=
  48 ≤ c.toNat && c.toNat ≤ 57

/-- A character kept by `re.sub(r'[^\w\s]', '', text)`: a word character
(letter, digit or underscore) or whitespace. -/
def isWordOrSpace (c : Char) : Bool :=
  (65 ≤ c.toNat && c.toNat ≤ 90) || (97 ≤ c.toNat && c.toNat ≤ 122) ||
    (48 ≤ c.toNat && c.toNat ≤ 57) || c.toNat = 95 || isSpaceChar c

/-- ASCII model of `str.lower` on one character. -/
def lowerChar (c : Char) : Char :=
  if 65 ≤ c.toNat ∧ c.toNat ≤ 90 then Char.ofNat (c.toNat + 32) else c

/-- `re.sub(r'[^\w\s]', '', text)`: drop every character that is neither
a word character nor whitespace. -/
def removePunct (l : List Char) : List Char :=
  l.filter isWordOrSpace

/-- `re.sub(r'\d+', '', text)`: drop every digit character. -/
def removeDigits (l : List Char) : List Char :=
  l.filter (fun c => !isDigitChar c)

/-- Python `str.strip()`: drop leading and trailing whitespace. -/
def trimChars (l : List Char) : List Char :=
  (((l.dropWhile isSpaceChar).reverse).dropWhile isSpaceChar).reverse

/-- The normalization pipeline of lines 32–33 of `concretize.py`:
punctuation removal, then digit removal, then strip. -/
def normalizeChars (l : List Char) : List Char :=
  trimChars (removeDigits (removePunct l))

/-- `str.lower` on a character list. -/
def lowerChars (l : List Char) : List Char :=
  l.map lowerChar

/-- Python `str.split()` with no separator: split on runs of whitespace,
dropping empty pieces.  The first argument accumulates the current token
in reverse. -/
def splitWS : List Char → List Char → List String
  | acc, [] => if acc.isEmpty then [] else [String.mk acc.reverse]
  | acc, c :: cs =>
    if isSpaceChar c then
      if acc.isEmpty then splitWS [] cs
      else String.mk acc.reverse :: splitWS [] cs
    else splitWS (c :: acc) cs

/-- `text.lower().split()` applied to the normalized text (line 38). -/
def tokenizeText (s : String) : List String :=
  splitWS [] (lowerChars (normalizeChars s.data))

/-- A Python dictionary from strings to ratings, as an association list
with unique keys. -/
abbrev Dict : Type := List (String × ℚ)

/-- Key lookup (`k in d` / `d[k]`). -/
def Dict.lookup : Dict → String → Option ℚ
  | [], _ => none
  | (k2, v) :: rest, k => if k2 = k then some v else Dict.lookup rest k

/-- `d[k] = v`: insert, overwriting any existing binding for `k`
(last write wins, keys stay unique). -/
def Dict.insert (d : Dict) (k : String) (v : ℚ) : Dict :=
  (k, v) :: d.filter (fun p => p.1 ≠ k)

/-- The while loop of lines 40–53: scan the token list left to right;
at each position try the two-token bigram first (when a next token
exists), otherwise fall back to the single-token unigram; a matched
bigram consumes both tokens. -/
def scanTokens (unigram_dict bigram_dict : Dict) : List String → List ℚ
  | [] => []
  | [t] =>
    match Dict.lookup unigram_dict t with
    | some r => [r]
    | none => []
  | t1 :: t2 :: rest =>
    match Dict.lookup bigram_dict (t1 ++ " " ++ t2) with
    | some r => r :: scanTokens unigram_dict bigram_dict rest
    | none =>
      match Dict.lookup unigram_dict t1 with
      | some r => r :: scanTokens unigram_dict bigram_dict (t2 :: rest)
      | none => scanTokens unigram_dict bigram_dict (t2 :: rest)

/-- Shallow embedding of `compute_text_concreteness` (lines 13–55).
`none` stands for a non-string cell value. -/
def compute_text_concreteness (text : Option String) (unigram_dict bigram_dict : Dict) : ℚ :=
  match text with
  | none => -1
  | some s =>
    let t := normalizeChars s.data
    if t.isEmpty then -1
    else
      let ratings := scanTokens unigram_dict bigram_dict (splitWS [] (lowerChars t))
      if ratings.isEmpty then -1 else ratings.sum / (ratings.length : ℚ)

/-- One row of the concreteness-ratings table after `read_csv`: the
`Word` cell (`none` = NaN, dropped by `dropna`), the numeric `Conc.M`
rating and the integer `Bigram` flag. -/
structure RatingRow where
  word : Option String
  rating : ℚ
  bigram : Int
deriving Repr, DecidableEq

/-- One iteration of the dictionary-building loop (lines 86–92) combined
with the column-wide preprocessing of lines 80–81: `dropna` skips rows
with a missing `Word`; a present word is lowercased (line 81) and
stripped (line 87) and routed by the `Bigram` flag. -/
def buildStep (acc : Dict × Dict) (row : RatingRow) : Dict × Dict :=
  match row.word with
  | none => acc
  | some w =>
    let key := String.mk (trimChars (lowerChars w.data))
    if row.bigram = 1 then (acc.1, Dict.insert acc.2 key row.rating)
    else (Dict.insert acc.1 key row.rating, acc.2)

/-- The dictionary-building section of `process_text_data`
(lines 80–92): fold the rating rows into the two mappings. -/
def build_lexicon (rows : List RatingRow) : Dict × Dict :=
  rows.foldl buildStep ([], [])

/-- `str.lower` on a whole string. -/
def lowerString (s : String) : String :=
  String.mk (lowerChars s.data)

/-! ## Character-level lemmas -/

lemma toNat_ofNat_of_validChar {n : Nat} (h : n.isValidChar) :
    (Char.ofNat n).toNat = n := by
  unfold Char.ofNat
  rw [dif_pos h]
  rfl

lemma lowerChar_toNat (c : Char) :
    (lowerChar c).toNat =
      if 65 ≤ c.toNat ∧ c.toNat ≤ 90 then c.toNat + 32 else c.toNat := by
  unfold lowerChar
  by_cases h : 65 ≤ c.toNat ∧ c.toNat ≤ 90
  · rw [if_pos h, if_pos h, toNat_ofNat_of_validChar (Or.inl (by omega))]
  · rw [if_neg h, if_neg h]

lemma isSpaceChar_lowerChar (c : Char) :
    isSpaceChar (lowerChar c) = isSpaceChar c := by
  have h := lowerChar_toNat c
  unfold isSpaceChar
  rw [h]
  by_cases hc : 65 ≤ c.toNat ∧ c.toNat ≤ 90
  · rw [if_pos hc, Bool.eq_iff_iff]
    simp only [Bool.or_eq_true, decide_eq_true_eq]
    omega
  · rw [if_neg hc]

lemma isDigitChar_lowerChar (c : Char) :
    isDigitChar (lowerChar c) = isDigitChar c := by
  have h := lowerChar_toNat c
  unfold isDigitChar
  rw [h]
  by_cases hc : 65 ≤ c.toNat ∧ c.toNat ≤ 90
  · rw [if_pos hc, Bool.eq_iff_iff]
    simp only [Bool.and_eq_true, decide_eq_true_eq]
    omega
  · rw [if_neg hc]

lemma isWordOrSpace_lowerChar (c : Char) :
    isWordOrSpace (lowerChar c) = isWordOrSpace c := by
  have h := lowerChar_toNat c
  unfold isWordOrSpace isSpaceChar
  rw [h]
  by_cases hc : 65 ≤ c.toNat ∧ c.toNat ≤ 90
  · rw [if_pos hc, Bool.eq_iff_iff]
    simp only [Bool.or_eq_true, Bool.and_eq_true, decide_eq_true_eq]
    omega
  · rw [if_neg hc]

lemma lowerChar_eq_self (c : Char) (h : ¬ (65 ≤ c.toNat ∧ c.toNat ≤ 90)) :
    lowerChar c = c := by
  unfold lowerChar
  rw [if_neg h]

lemma lowerChar_lowerChar (c : Char) :
    lowerChar (lowerChar c) = lowerChar c := by
  have h := lowerChar_toNat c
  by_cases hc : 65 ≤ c.toNat ∧ c.toNat ≤ 90
  · rw [if_pos hc] at h
    exact lowerChar_eq_self _ (by omega)
  · rw [lowerChar_eq_self c hc, lowerChar_eq_self c hc]

/-! ## Commutation of normalization with lowercasing -/

lemma removePunct_lowerChars (l : List Char) :
    removePunct (lowerChars l) = lowerChars (removePunct l) := by
  unfold removePunct lowerChars
  rw [List.filter_map]
  have hp : (isWordOrSpace ∘ lowerChar) = isWordOrSpace := funext isWordOrSpace_lowerChar
  rw [hp]

lemma removeDigits_lowerChars (l : List Char) :
    removeDigits (lowerChars l) = lowerChars (removeDigits l) := by
  unfold removeDigits lowerChars
  rw [List.filter_map]
  have hp : ((fun c => !isDigitChar c) ∘ lowerChar) = fun c => !isDigitChar c := by
    funext c
    simp [Function.comp, isDigitChar_lowerChar c]
  rw [hp]

lemma trimChars_lowerChars (l : List Char) :
    trimChars (lowerChars l) = lowerChars (trimChars l) := by
  unfold trimChars lowerChars
  have hp : (isSpaceChar ∘ lowerChar) = isSpaceChar := funext isSpaceChar_lowerChar
  rw [List.dropWhile_map, hp, ← List.map_reverse, List.dropWhile_map, hp, ← List.map_reverse]

lemma normalizeChars_lowerChars (l : List Char) :
    normalizeChars (lowerChars l) = lowerChars (normalizeChars l) := by
  unfold normalizeChars
  rw [removePunct_lowerChars, removeDigits_lowerChars, trimChars_lowerChars]

lemma lowerChars_lowerChars (l : List Char) :
    lowerChars (lowerChars l) = lowerChars l := by
  unfold lowerChars
  rw [List.map_map]
  have hp : (lowerChar ∘ lowerChar) = lowerChar := funext lowerChar_lowerChar
  rw [hp]

/-! ## Dictionary lemmas -/

lemma Dict.lookup_mem {d : Dict} {k : String} {r : ℚ}
    (h : Dict.lookup d k = some r) : (k, r) ∈ d := by
  induction d with
  | nil => simp [Dict.lookup] at h
  | cons p rest ih =>
    obtain ⟨k2, v⟩ := p
    by_cases hk : k2 = k
    · subst hk
      rw [Dict.lookup, if_pos rfl] at h
      cases h
      exact List.mem_cons_self _ _
    · rw [Dict.lookup, if_neg hk] at h
      exact List.mem_cons_of_mem _ (ih h)

/-! ## Scan lemmas -/

lemma scanTokens_cons_bigram (unigram_dict bigram_dict : Dict) (t1 t2 : String)
    (rest : List String) (r : ℚ)
    (h : Dict.lookup bigram_dict (t1 ++ " " ++ t2) = some r) :
    scanTokens unigram_dict bigram_dict (t1 :: t2 :: rest) =
      r :: scanTokens unigram_dict bigram_dict rest := by
  simp [scanTokens, h]

lemma scanTokens_mem {unigram_dict bigram_dict : Dict} {toks : List String} {r : ℚ}
    (h : r ∈ scanTokens unigram_dict bigram_dict toks) :
    (∃ k, (k, r) ∈ unigram_dict) ∨ (∃ k, (k, r) ∈ bigram_dict) := by
  revert h
  induction toks using scanTokens.induct unigram_dict bigram_dict with
  | case1 =>
    intro h
    simp [scanTokens] at h
  | case2 t v hu =>
    intro h
    rw [scanTokens, hu] at h
    simp at h
    subst h
    exact Or.inl ⟨t, Dict.lookup_mem hu⟩
  | case3 t hu =>
    intro h
    rw [scanTokens, hu] at h
    simp at h
  | case4 t1 t2 rest v hb ih =>
    intro h
    rw [scanTokens, hb, List.mem_cons] at h
    rcases h with h | h
    subst h
    · exact Or.inr ⟨t1 ++ " " ++ t2, Dict.lookup_mem hb⟩
    · exact ih h
  | case5 t1 t2 rest hb v hu ih =>
    intro h
    rw [scanTokens, hb, hu, List.mem_cons] at h
    rcases h with h | h
    subst h
    · exact Or.inl ⟨t1, Dict.lookup_mem hu⟩
    · exact ih h
  | case6 t1 t2 rest hb hu ih =>
    intro h
    rw [scanTokens, hb, hu] at h
    exact ih h

/-! ## Mean lemmas -/

lemma neg_length_lt_sum (l : List ℚ) (hne : l ≠ []) (h : ∀ r ∈ l, -1 < r) :
    -(l.length : ℚ) < l.sum := by
  induction l with
  | nil => exact absurd rfl hne
  | cons a t ih =>
    have ha : -1 < a := h a (List.mem_cons_self _ _)
    rcases eq_or_ne t [] with ht | ht
    · subst ht
      simpa using ha
    · have ht2 := ih ht (fun r hr => h r (List.mem_cons_of_mem _ hr))
      rw [List.sum_cons, List.length_cons]
      push_cast
      linarith

lemma sum_div_length_ne_neg_one (l : List ℚ) (hne : l ≠ []) (h : ∀ r ∈ l, -1 < r) :
    l.sum / (l.length : ℚ) ≠ -1 := by
  have hpos : 0 < l.length := List.length_pos.mpr hne
  have hlen : 0 < (l.length : ℚ) := by exact_mod_cast hpos
  have hsum := neg_length_lt_sum l hne h
  intro heq
  rw [div_eq_iff (ne_of_gt hlen)] at heq
  rw [heq] at hsum
  linarith

/-! ## Characterization of `compute_text_concreteness` -/

lemma tokenizeText_def (s : String) :
    splitWS [] (lowerChars (normalizeChars s.data)) = tokenizeText s := rfl

lemma tokenizeText_eq_nil_of_normalize_nil (s : String)
    (h : normalizeChars s.data = []) : tokenizeText s = [] := by
  unfold tokenizeText
  rw [h]
  rfl

lemma compute_none (unigram_dict bigram_dict : Dict) :
    compute_text_concreteness none unigram_dict bigram_dict = -1 := rfl

lemma compute_some_empty (s : String) (unigram_dict bigram_dict : Dict)
    (h : normalizeChars s.data = []) :
    compute_text_concreteness (some s) unigram_dict bigram_dict = -1 := by
  simp [compute_text_concreteness, h]

lemma compute_some_noratings (s : String) (unigram_dict bigram_dict : Dict)
    (h : scanTokens unigram_dict bigram_dict (tokenizeText s) = []) :
    compute_text_concreteness (some s) unigram_dict bigram_dict = -1 := by
  rcases hn : normalizeChars s.data with _ | ⟨c, cs⟩
  · exact compute_some_empty s _ _ hn
  · rw [← tokenizeText_def] at h
    simp [compute_text_concreteness, hn, h]
    rw [hn] at h
    simp [h]

lemma compute_some_eq_mean (s : String) (unigram_dict bigram_dict : Dict)
    (h : scanTokens unigram_dict bigram_dict (tokenizeText s) ≠ []) :
    compute_text_concreteness (some s) unigram_dict bigram_dict =
      (scanTokens unigram_dict bigram_dict (tokenizeText s)).sum /
        ((scanTokens unigram_dict bigram_dict (tokenizeText s)).length : ℚ) := by
  have hn : normalizeChars s.data ≠ [] := by
    intro hnil
    exact h (by rw [tokenizeText_eq_nil_of_normalize_nil s hnil]; rfl)
  simp only [compute_text_concreteness, tokenizeText_def]
  rw [if_neg (by simpa using hn), if_neg (by simpa using h)]

/-! ## Case invariance -/

lemma isEmpty_lowerChars (l : List Char) :
    (lowerChars l).isEmpty = l.isEmpty := by
  cases l <;> rfl

lemma compute_lowerString (s : String) (unigram_dict bigram_dict : Dict) :
    compute_text_concreteness (some (lowerString s)) unigram_dict bigram_dict =
      compute_text_concreteness (some s) unigram_dict bigram_dict := by
  have hd : (lowerString s).data = lowerChars s.data := rfl
  simp only [compute_text_concreteness, hd, normalizeChars_lowerChars,
    isEmpty_lowerChars, lowerChars_lowerChars]

/-! ## Claim theorems -/

/-- C1 (amended): provided every rating stored in the two mappings is
greater than -1 (as is the case for the intended 1–5 concreteness
scale), `compute_text_concreteness` returns the sentinel -1 if and only
if the text is not a string, or the string is empty after punctuation
removal, digit removal and whitespace stripping, or the token scan
collects zero ratings; in every other case it returns the mean of the
collected ratings, which is then never -1. -/
theorem C1_sentinel_iff (text : Option String) (unigram_dict bigram_dict : Dict)
    (hu : ∀ p ∈ unigram_dict, (-1 : ℚ) < p.2)
    (hb : ∀ p ∈ bigram_dict, (-1 : ℚ) < p.2) :
    compute_text_concreteness text unigram_dict bigram_dict = -1 ↔
      (text = none ∨ ∃ s, text = some s ∧
        (normalizeChars s.data = [] ∨
          scanTokens unigram_dict bigram_dict (tokenizeText s) = [])) := by
  cases text with
  | none => simp [compute_none]
  | some s =>
    simp only [Option.some.injEq, reduceCtorEq, false_or]
    constructor
    · intro h
      by_contra hc
      push_neg at hc
      have hc2 := hc s rfl
      push_neg at hc2
      obtain ⟨hn, hsc⟩ := hc2
      rw [compute_some_eq_mean s _ _ hsc] at h
      have hall : ∀ r ∈ scanTokens unigram_dict bigram_dict (tokenizeText s), (-1 : ℚ) < r := by
        intro r hr
        rcases scanTokens_mem hr with ⟨k, hk⟩ | ⟨k, hk⟩
        · exact hu (k, r) hk
        · exact hb (k, r) hk
      exact sum_div_length_ne_neg_one _ hsc hall h
    · rintro ⟨s2, hs2, h | h⟩
      · cases hs2
        exact compute_some_empty s _ _ h
      · cases hs2
        exact compute_some_noratings s _ _ h

/-- C1 counterexample to the claim as stated: with a lexicon that rates
"cat" at -1, the text "cat" is a valid string, normalizes to a non-empty
string and collects one rating, yet the returned mean equals -1 — the
sentinel is not distinguishable from a legitimately computed mean of -1,
so the "if and only if / never -1" claim fails without a restriction on
the rating values. -/
theorem C1_counterexample :
    compute_text_concreteness (some "cat") [("cat", -1)] [] = -1 ∧
    scanTokens [("cat", -1)] [] (tokenizeText "cat") ≠ [] ∧
    normalizeChars "cat".data ≠ [] := by
  have hs : scanTokens [("cat", -1)] [] (tokenizeText "cat") = [-1] := by decide
  refine ⟨?_, by rw [hs]; simp, by decide⟩
  rw [compute_some_eq_mean _ _ _ (by rw [hs]; simp), hs]
  norm_num

/-- C1 witness: the amended equivalence applied to the concrete all-noise
text "!!!" and the one-entry lexicon rating "cat" at 3. -/
theorem C1_witness :
    compute_text_concreteness (some "!!!") [("cat", 3)] [] = -1 ↔
      ((some "!!!" : Option String) = none ∨ ∃ s, (some "!!!" : Option String) = some s ∧
        (normalizeChars s.data = [] ∨
          scanTokens [("cat", 3)] [] (tokenizeText s) = [])) :=
  C1_sentinel_iff (some "!!!") [("cat", 3)] []
    (by intro p hp; rcases List.mem_singleton.mp hp with rfl; norm_num)
    (by intro p hp; simp at hp)

/-- C2: at any position where the two-token candidate is a key of the
bigram mapping, its rating is taken and the scan continues after both
tokens, so no unigram rating for the first token is collected; in
particular, scoring "climate change" against unigram climate ↦ 2 and
bigram "climate change" ↦ 4.5 returns exactly 4.5. -/
theorem C2_bigram_precedence (unigram_dict bigram_dict : Dict) (t1 t2 : String)
    (rest : List String) (r : ℚ)
    (h : Dict.lookup bigram_dict (t1 ++ " " ++ t2) = some r) :
    scanTokens unigram_dict bigram_dict (t1 :: t2 :: rest) =
      r :: scanTokens unigram_dict bigram_dict rest ∧
    compute_text_concreteness (some "climate change") [("climate", 2)]
      [("climate change", 9/2)] = 9/2 := by
  refine ⟨scanTokens_cons_bigram _ _ _ _ _ _ h, ?_⟩
  have ht : tokenizeText "climate change" = ["climate", "change"] := by decide
  have hs : scanTokens [("climate", 2)] [("climate change", 9/2)]
      (tokenizeText "climate change") = [9/2] := by
    rw [ht]
    rfl
  rw [compute_some_eq_mean _ _ _ (by rw [hs]; simp), hs]
  norm_num

/-- C2 witness: the theorem applied to the concrete lexicon of the claim,
where the candidate bigram "climate change" is a bigram key. -/
theorem C2_witness :
    scanTokens [("climate", 2)] [("climate change", 9/2)]
        ["climate" , "change"] =
      9/2 :: scanTokens [("climate", 2)] [("climate change", 9/2)] [] ∧
    compute_text_concreteness (some "climate change") [("climate", 2)]
      [("climate change", 9/2)] = 9/2 :=
  C2_bigram_precedence [("climate", 2)] [("climate change", 9/2)]
    "climate" "change" [] (9/2) rfl

/-- C3: after a bigram match at position i the cursor advances by 2 and
the second token is never separately tested against the unigram mapping:
the scan result continues with the tokens after the pair, and changing
the unigram rating of the second token ("change" ↦ c for any c) never
affects the score of "climate change". -/
theorem C3_nonoverlap (unigram_dict bigram_dict : Dict) (t1 t2 : String)
    (rest : List String) (r : ℚ)
    (h : Dict.lookup bigram_dict (t1 ++ " " ++ t2) = some r) :
    scanTokens unigram_dict bigram_dict (t1 :: t2 :: rest) =
      r :: scanTokens unigram_dict bigram_dict rest ∧
    ∀ c : ℚ, compute_text_concreteness (some "climate change")
      [("climate", 2), ("change", c)] [("climate change", 9/2)] = 9/2 := by
  refine ⟨scanTokens_cons_bigram _ _ _ _ _ _ h, ?_⟩
  intro c
  have ht : tokenizeText "climate change" = ["climate", "change"] := by decide
  have hs : scanTokens [("climate", 2), ("change", c)] [("climate change", 9/2)]
      (tokenizeText "climate change") = [9/2] := by
    rw [ht]
    rfl
  rw [compute_some_eq_mean _ _ _ (by rw [hs]; simp), hs]
  norm_num

/-- C3 witness: the theorem applied to the concrete lexicon of the claim
with "change" also present as a unigram key (rated 1). -/
theorem C3_witness :
    scanTokens [("climate", 2), ("change", 1)] [("climate change", 9/2)]
        ["climate" , "change"] =
      9/2 :: scanTokens [("climate", 2), ("change", 1)] [("climate change", 9/2)] [] ∧
    ∀ c : ℚ, compute_text_concreteness (some "climate change")
      [("climate", 2), ("change", c)] [("climate change", 9/2)] = 9/2 :=
  C3_nonoverlap [("climate", 2), ("change", 1)] [("climate change", 9/2)]
    "climate" "change" [] (9/2) rfl

/-- C4: whenever the scan collects a non-empty list of ratings, the
score is exactly their sum divided by their count; in particular
"the cat and dog" with cat ↦ 3 and dog ↦ 5 scores (3+5)/2 = 4. -/
theorem C4_mean_correctness (s : String) (unigram_dict bigram_dict : Dict)
    (h : scanTokens unigram_dict bigram_dict (tokenizeText s) ≠ []) :
    compute_text_concreteness (some s) unigram_dict bigram_dict =
      (scanTokens unigram_dict bigram_dict (tokenizeText s)).sum /
        ((scanTokens unigram_dict bigram_dict (tokenizeText s)).length : ℚ) ∧
    compute_text_concreteness (some "the cat and dog") [("cat", 3), ("dog", 5)] [] = 4 := by
  refine ⟨compute_some_eq_mean s _ _ h, ?_⟩
  have hs : scanTokens [("cat", 3), ("dog", 5)] [] (tokenizeText "the cat and dog") =
      [3, 5] := by decide
  rw [compute_some_eq_mean _ _ _ (by rw [hs]; simp), hs]
  norm_num

/-- C4 witness: the theorem applied to the text "the cat and dog" and the
lexicon cat ↦ 3, dog ↦ 5, whose scan collects the two ratings 3 and 5. -/
theorem C4_witness :
    compute_text_concreteness (some "the cat and dog") [("cat", 3), ("dog", 5)] [] =
      (scanTokens [("cat", 3), ("dog", 5)] [] (tokenizeText "the cat and dog")).sum /
        ((scanTokens [("cat", 3), ("dog", 5)] [] (tokenizeText "the cat and dog")).length : ℚ) ∧
    compute_text_concreteness (some "the cat and dog") [("cat", 3), ("dog", 5)] [] = 4 :=
  C4_mean_correctness "the cat and dog" [("cat", 3), ("dog", 5)] [] (by decide)

/-- C8: the score of any text equals the score of its lowercased form,
for every pair of mappings (the scorer lowercases tokens itself, so in
particular lexicons with lowercase keys see identical results); in
particular "CAT" and "cat" always score identically. -/
theorem C8_case_insensitivity (s : String) (unigram_dict bigram_dict : Dict) :
    compute_text_concreteness (some (lowerString s)) unigram_dict bigram_dict =
      compute_text_concreteness (some s) unigram_dict bigram_dict ∧
    compute_text_concreteness (some "CAT") unigram_dict bigram_dict =
      compute_text_concreteness (some "cat") unigram_dict bigram_dict := by
  refine ⟨compute_lowerString s unigram_dict bigram_dict, ?_⟩
  have h1 : lowerString "CAT" = "cat" := by decide
  rw [← h1]
  exact (compute_lowerString "CAT" unigram_dict bigram_dict).symm

/-! ## The scan as an index-and-cursor loop (termination) -/

/-- The while loop of lines 40–53 written exactly as in the source: a
cursor `i` into the token list, advanced by 2 after a bigram match and
by 1 otherwise, with an explicit fuel bound; `none` means the fuel ran
out before the loop exited. -/
def scanLoop (unigram_dict bigram_dict : Dict) (tokens : List String) :
    Nat → Nat → List ℚ → Option (List ℚ)
  | 0, _, _ => none
  | fuel + 1, i, ratings =>
    if _h : i < tokens.length then
      if i < tokens.length - 1 then
        match tokens[i]?, tokens[i+1]? with
        | some t1, some t2 =>
          (match Dict.lookup bigram_dict (t1 ++ " " ++ t2) with
           | some r => scanLoop unigram_dict bigram_dict tokens fuel (i+2) (ratings ++ [r])
           | none =>
             match Dict.lookup unigram_dict t1 with
             | some r => scanLoop unigram_dict bigram_dict tokens fuel (i+1) (ratings ++ [r])
             | none => scanLoop unigram_dict bigram_dict tokens fuel (i+1) ratings)
        | _, _ => none
      else
        match tokens[i]? with
        | some t =>
          (match Dict.lookup unigram_dict t with
           | some r => scanLoop unigram_dict bigram_dict tokens fuel (i+1) (ratings ++ [r])
           | none => scanLoop unigram_dict bigram_dict tokens fuel (i+1) ratings)
        | none => none
    else some ratings

lemma scanTokens_nil_eq (unigram_dict bigram_dict : Dict) :
    scanTokens unigram_dict bigram_dict [] = [] := rfl

lemma scanTokens_single_eq (unigram_dict bigram_dict : Dict) (t : String) :
    scanTokens unigram_dict bigram_dict [t] =
      (match Dict.lookup unigram_dict t with
       | some r => [r]
       | none => []) := rfl

lemma scanTokens_cons_cons_eq (unigram_dict bigram_dict : Dict) (t1 t2 : String)
    (rest : List String) :
    scanTokens unigram_dict bigram_dict (t1 :: t2 :: rest) =
      (match Dict.lookup bigram_dict (t1 ++ " " ++ t2) with
       | some r => r :: scanTokens unigram_dict bigram_dict rest
       | none =>
         match Dict.lookup unigram_dict t1 with
         | some r => r :: scanTokens unigram_dict bigram_dict (t2 :: rest)
         | none => scanTokens unigram_dict bigram_dict (t2 :: rest)) := rfl

lemma scanLoop_eq_scanTokens (unigram_dict bigram_dict : Dict) (tokens : List String) :
    ∀ (fuel i : Nat) (ratings : List ℚ), tokens.length - i < fuel →
      scanLoop unigram_dict bigram_dict tokens fuel i ratings =
        some (ratings ++ scanTokens unigram_dict bigram_dict (tokens.drop i)) := by
  intro fuel
  induction fuel with
  | zero => intro i ratings h; omega
  | succ fuel ih =>
    intro i ratings hfuel
    by_cases hi : i < tokens.length
    · have hdrop : tokens.drop i = tokens[i] :: tokens.drop (i+1) :=
        List.drop_eq_getElem_cons hi
      by_cases hi2 : i < tokens.length - 1
      · have hi1 : i + 1 < tokens.length := by omega
        have hdrop2 : tokens.drop (i+1) = tokens[i+1] :: tokens.drop (i+2) :=
          List.drop_eq_getElem_cons hi1
        rw [scanLoop, dif_pos hi, if_pos hi2, List.getElem?_eq_getElem hi,
          List.getElem?_eq_getElem hi1, hdrop, hdrop2, scanTokens_cons_cons_eq]
        rcases hb : Dict.lookup bigram_dict (tokens[i] ++ " " ++ tokens[i+1]) with _ | r
        · rcases hu : Dict.lookup unigram_dict tokens[i] with _ | r
          · simp only [hb, hu]
            rw [ih (i+1) ratings (by omega), hdrop2]
          · simp only [hb, hu]
            rw [ih (i+1) (ratings ++ [r]) (by omega), hdrop2]
            simp
        · simp only [hb]
          rw [ih (i+2) (ratings ++ [r]) (by omega)]
          simp
      · have hlast : tokens.drop (i+1) = [] := by
          apply List.drop_eq_nil_of_le
          omega
        rw [scanLoop, dif_pos hi, if_neg hi2, List.getElem?_eq_getElem hi, hdrop, hlast,
          scanTokens_single_eq]
        rcases hu : Dict.lookup unigram_dict tokens[i] with _ | r
        · simp only [hu]
          rw [ih (i+1) ratings (by omega), hlast]
          simp [scanTokens_nil_eq]
        · simp only [hu]
          rw [ih (i+1) (ratings ++ [r]) (by omega), hlast]
          simp [scanTokens_nil_eq]
    · have hdrop : tokens.drop i = [] := List.drop_eq_nil_of_le (by omega)
      rw [scanLoop, dif_neg hi, hdrop]
      simp [scanTokens_nil_eq]

/-- C9: the left-to-right token scan terminates: run with any fuel
exceeding the number of tokens (the cursor advances by 1 or 2 each
iteration), the cursor loop exits and returns exactly the rating list of
the structurally recursive scan — the scan is a total function of its
inputs. -/
theorem C9_scan_terminates (unigram_dict bigram_dict : Dict) (tokens : List String) :
    scanLoop unigram_dict bigram_dict tokens (tokens.length + 1) 0 [] =
      some (scanTokens unigram_dict bigram_dict tokens) := by
  have h := scanLoop_eq_scanTokens unigram_dict bigram_dict tokens
    (tokens.length + 1) 0 [] (by omega)
  simpa using h

/-! ## Punctuation fusion (no token separator inserted) -/

lemma removePunct_append (l1 l2 : List Char) :
    removePunct (l1 ++ l2) = removePunct l1 ++ removePunct l2 :=
  List.filter_append _ _

/-- C10 counterexample to the claim as stated: against the empty lexicon
"catdog" is not a key, yet "cat,dog" and "cat dog" score identically
(both -1), so the scores do not differ for every lexicon lacking the
fused key. -/
theorem C10_counterexample :
    Dict.lookup ([] : Dict) "catdog" = none ∧
    compute_text_concreteness (some "cat,dog") [] [] =
      compute_text_concreteness (some "cat dog") [] [] := by
  constructor
  · rfl
  · decide

/-- C10 (amended): punctuation removal inserts no token separator: a
punctuation run between two words vanishes and the words fuse
(`normalizeChars (a ++ p ++ b) = normalizeChars (a ++ b)` for every
all-punctuation run `p`), so "cat,dog" normalizes to the single token
"catdog"; whenever "catdog" is not a unigram key the score of "cat,dog"
is -1, and in particular against cat ↦ 3, dog ↦ 5 the score of
"cat,dog" is -1 while the score of "cat dog" is 4. -/
theorem C10_punctuation_fusion (a p b : List Char) (unigram_dict bigram_dict : Dict)
    (hp : ∀ c ∈ p, isWordOrSpace c = false)
    (hcd : Dict.lookup unigram_dict "catdog" = none) :
    normalizeChars (a ++ p ++ b) = normalizeChars (a ++ b) ∧
    tokenizeText "cat,dog" = ["catdog"] ∧
    compute_text_concreteness (some "cat,dog") unigram_dict bigram_dict = -1 ∧
    compute_text_concreteness (some "cat,dog") [("cat", 3), ("dog", 5)] [] = -1 ∧
    compute_text_concreteness (some "cat dog") [("cat", 3), ("dog", 5)] [] = 4 := by
  refine ⟨?_, by decide, ?_, by decide, ?_⟩
  · unfold normalizeChars
    rw [removePunct_append, removePunct_append, removePunct_append]
    have hpnil : removePunct p = [] := by
      unfold removePunct
      rw [List.filter_eq_nil_iff]
      intro c hc
      simp [hp c hc]
    rw [hpnil, List.append_nil]
  · apply compute_some_noratings
    have ht : tokenizeText "cat,dog" = ["catdog"] := by decide
    rw [ht, scanTokens_single_eq, hcd]
  · have hs : scanTokens [("cat", 3), ("dog", 5)] [] (tokenizeText "cat dog") =
        [3, 5] := by decide
    rw [compute_some_eq_mean _ _ _ (by rw [hs]; simp), hs]
    norm_num

/-- C10 witness: the amended theorem applied to the concrete words
"cat" and "dog" joined by the punctuation run ",", with the lexicon
cat ↦ 3, dog ↦ 5 (which lacks the fused key "catdog"). -/
theorem C10_witness :
    normalizeChars (['c', 'a', 't'] ++ [','] ++ ['d', 'o', 'g']) =
      normalizeChars (['c', 'a', 't'] ++ ['d', 'o', 'g']) ∧
    tokenizeText "cat,dog" = ["catdog"] ∧
    compute_text_concreteness (some "cat,dog") [("cat", 3), ("dog", 5)] [] = -1 ∧
    compute_text_concreteness (some "cat,dog") [("cat", 3), ("dog", 5)] [] = -1 ∧
    compute_text_concreteness (some "cat dog") [("cat", 3), ("dog", 5)] [] = 4 :=
  C10_punctuation_fusion ['c', 'a', 't'] [','] ['d', 'o', 'g']
    [("cat", 3), ("dog", 5)] [] (by decide) rfl

/-! ## Key normalization facts -/

lemma dropWhile_trim_aux {α : Type} (p : α → Bool) (m : List α)
    (hm : m.dropWhile p = m) :
    ((m.reverse.dropWhile p).reverse).dropWhile p = (m.reverse.dropWhile p).reverse := by
  cases m with
  | nil => simp
  | cons c cs =>
    have hc : p c = false := by
      by_contra hpc
      rw [Bool.not_eq_false] at hpc
      rw [List.dropWhile_cons, if_pos hpc] at hm
      have hlen := congrArg List.length hm
      have hle : (cs.dropWhile p).length ≤ cs.length :=
        (List.dropWhile_sublist p).length_le
      simp at hlen
      omega
    rw [List.reverse_cons, List.dropWhile_append]
    by_cases he : ((cs.reverse).dropWhile p).isEmpty
    · rw [if_pos he]
      simp [List.dropWhile_cons, hc]
    · rw [if_neg he]
      rw [List.reverse_append]
      simp [List.dropWhile_cons, hc]

lemma trimChars_trimChars (l : List Char) :
    trimChars (trimChars l) = trimChars l := by
  unfold trimChars
  have hm1 : (l.dropWhile isSpaceChar).dropWhile isSpaceChar = l.dropWhile isSpaceChar :=
    List.dropWhile_idempotent _ _
  have hA := dropWhile_trim_aux isSpaceChar (l.dropWhile isSpaceChar) hm1
  rw [hA, List.reverse_reverse, List.dropWhile_idempotent _ _]

lemma lowerChars_trimChars_lowerChars (l : List Char) :
    lowerChars (trimChars (lowerChars l)) = trimChars (lowerChars l) := by
  rw [← trimChars_lowerChars, lowerChars_lowerChars]

/-! ## Dictionary insert lemmas -/

lemma Dict.lookup_insert_self (d : Dict) (k : String) (v : ℚ) :
    Dict.lookup (Dict.insert d k v) k = some v := by
  unfold Dict.insert
  rw [Dict.lookup, if_pos rfl]

lemma Dict.lookup_filter_ne (d : Dict) (k k2 : String) (h : k2 ≠ k) :
    Dict.lookup (d.filter (fun p => p.1 ≠ k2)) k = Dict.lookup d k := by
  induction d with
  | nil => rfl
  | cons q rest ih =>
    obtain ⟨k3, v3⟩ := q
    by_cases h3 : k3 = k2
    · subst h3
      rw [List.filter_cons_of_neg (by simp)]
      rw [ih, Dict.lookup, if_neg (by intro hk; exact h (hk ▸ rfl))]
    · rw [List.filter_cons_of_pos (by simpa using h3)]
      by_cases hk : k3 = k
      · subst hk
        rw [Dict.lookup, if_pos rfl, Dict.lookup, if_pos rfl]
      · rw [Dict.lookup, if_neg hk, Dict.lookup, if_neg hk, ih]

lemma Dict.lookup_insert_ne (d : Dict) (k k2 : String) (v : ℚ) (h : k2 ≠ k) :
    Dict.lookup (Dict.insert d k2 v) k = Dict.lookup d k := by
  unfold Dict.insert
  rw [Dict.lookup, if_neg h, Dict.lookup_filter_ne d k k2 h]

lemma Dict.insert_keys_nodup (d : Dict) (k : String) (v : ℚ)
    (h : (d.map Prod.fst).Nodup) :
    (((Dict.insert d k v).map Prod.fst)).Nodup := by
  unfold Dict.insert
  rw [List.map_cons, List.nodup_cons]
  constructor
  · intro hk
    obtain ⟨q, hq, hqk⟩ := List.mem_map.mp hk
    have hne := (List.mem_filter.mp hq).2
    simp at hne
    exact hne hqk
  · exact h.sublist ((List.filter_sublist d).map Prod.fst)

lemma Dict.mem_insert (d : Dict) (k : String) (v : ℚ) (q : String × ℚ)
    (h : q ∈ Dict.insert d k v) : q = (k, v) ∨ q ∈ d := by
  unfold Dict.insert at h
  rw [List.mem_cons] at h
  rcases h with h | h
  · exact Or.inl h
  · exact Or.inr (List.mem_filter.mp h).1

/-! ## Builder lemmas -/

/-- The key a row writes (after `dropna`, lowercasing and stripping), or
`none` for a dropped row. -/
def rowKey (row : RatingRow) : Option String :=
  match row.word with
  | none => none
  | some w => some (String.mk (trimChars (lowerChars w.data)))

lemma foldl_lookup_fst_untouched (rows : List RatingRow) (acc : Dict × Dict) (k : String)
    (h : ∀ row ∈ rows, row.bigram = 1 ∨ rowKey row ≠ some k) :
    Dict.lookup (rows.foldl buildStep acc).1 k = Dict.lookup acc.1 k := by
  induction rows generalizing acc with
  | nil => rfl
  | cons row rest ih =>
    rw [List.foldl_cons, ih _ (fun q hq => h q (List.mem_cons_of_mem _ hq))]
    rcases hrow : row.word with _ | w
    · simp [buildStep, hrow]
    · rcases h row (List.mem_cons_self _ _) with hflag | hkey
      · simp [buildStep, hrow, hflag]
      · rw [rowKey, hrow] at hkey
        simp only [ne_eq, Option.some.injEq] at hkey
        by_cases hflag : row.bigram = 1
        · simp [buildStep, hrow, hflag]
        · simp only [buildStep, hrow, if_neg hflag]
          exact Dict.lookup_insert_ne _ _ _ _ hkey

/-- Which mapping a row writes (`true` = the bigram mapping) and under
which normalized key; `none` for dropped rows. -/
def rowWrite (row : RatingRow) : Option (Bool × String) :=
  match row.word with
  | none => none
  | some w => some (row.bigram = 1, String.mk (trimChars (lowerChars w.data)))

lemma foldl_lookup_snd_untouched (rows : List RatingRow) (acc : Dict × Dict) (k : String)
    (h : ∀ row ∈ rows, row.bigram ≠ 1 ∨ rowKey row ≠ some k) :
    Dict.lookup (rows.foldl buildStep acc).2 k = Dict.lookup acc.2 k := by
  induction rows generalizing acc with
  | nil => rfl
  | cons row rest ih =>
    rw [List.foldl_cons, ih _ (fun q hq => h q (List.mem_cons_of_mem _ hq))]
    rcases hrow : row.word with _ | w
    · simp [buildStep, hrow]
    · rcases h row (List.mem_cons_self _ _) with hflag | hkey
      · simp [buildStep, hrow, hflag]
      · rw [rowKey, hrow] at hkey
        simp only [ne_eq, Option.some.injEq] at hkey
        by_cases hflag : row.bigram = 1
        · simp only [buildStep, hrow, if_pos hflag]
          exact Dict.lookup_insert_ne _ _ _ _ hkey
        · simp [buildStep, hrow, hflag]

lemma foldl_mem_fst (rows : List RatingRow) (acc : Dict × Dict) (q : String × ℚ)
    (hq : q ∈ (rows.foldl buildStep acc).1) :
    q ∈ acc.1 ∨ ∃ row ∈ rows, ∃ w, row.word = some w ∧
      q = (String.mk (trimChars (lowerChars w.data)), row.rating) := by
  induction rows generalizing acc with
  | nil => exact Or.inl hq
  | cons row rest ih =>
    rw [List.foldl_cons] at hq
    rcases ih (buildStep acc row) hq with h | ⟨row2, hrow2, w, hw, hqeq⟩
    · rcases hrow : row.word with _ | w
      · rw [show buildStep acc row = acc by simp [buildStep, hrow]] at h
        exact Or.inl h
      · by_cases hflag : row.bigram = 1
        · rw [show (buildStep acc row).1 = acc.1 by simp [buildStep, hrow, hflag]] at h
          exact Or.inl h
        · rw [show (buildStep acc row).1 =
              Dict.insert acc.1 (String.mk (trimChars (lowerChars w.data))) row.rating by
            simp [buildStep, hrow, hflag]] at h
          rcases Dict.mem_insert _ _ _ _ h with he | hin
          · exact Or.inr ⟨row, List.mem_cons_self _ _, w, hrow, he⟩
          · exact Or.inl hin
    · exact Or.inr ⟨row2, List.mem_cons_of_mem _ hrow2, w, hw, hqeq⟩

lemma foldl_mem_snd (rows : List RatingRow) (acc : Dict × Dict) (q : String × ℚ)
    (hq : q ∈ (rows.foldl buildStep acc).2) :
    q ∈ acc.2 ∨ ∃ row ∈ rows, ∃ w, row.word = some w ∧
      q = (String.mk (trimChars (lowerChars w.data)), row.rating) := by
  induction rows generalizing acc with
  | nil => exact Or.inl hq
  | cons row rest ih =>
    rw [List.foldl_cons] at hq
    rcases ih (buildStep acc row) hq with h | ⟨row2, hrow2, w, hw, hqeq⟩
    · rcases hrow : row.word with _ | w
      · rw [show buildStep acc row = acc by simp [buildStep, hrow]] at h
        exact Or.inl h
      · by_cases hflag : row.bigram = 1
        · rw [show (buildStep acc row).2 =
              Dict.insert acc.2 (String.mk (trimChars (lowerChars w.data))) row.rating by
            simp [buildStep, hrow, hflag]] at h
          rcases Dict.mem_insert _ _ _ _ h with he | hin
          · exact Or.inr ⟨row, List.mem_cons_self _ _, w, hrow, he⟩
          · exact Or.inl hin
        · rw [show (buildStep acc row).2 = acc.2 by simp [buildStep, hrow, hflag]] at h
          exact Or.inl h
    · exact Or.inr ⟨row2, List.mem_cons_of_mem _ hrow2, w, hw, hqeq⟩

lemma foldl_keys_nodup (rows : List RatingRow) (acc : Dict × Dict)
    (h1 : (acc.1.map Prod.fst).Nodup) (h2 : (acc.2.map Prod.fst).Nodup) :
    (((rows.foldl buildStep acc).1.map Prod.fst)).Nodup ∧
    (((rows.foldl buildStep acc).2.map Prod.fst)).Nodup := by
  induction rows generalizing acc with
  | nil => exact ⟨h1, h2⟩
  | cons row rest ih =>
    rw [List.foldl_cons]
    apply ih
    · rcases hrow : row.word with _ | w
      · simpa [buildStep, hrow] using h1
      · by_cases hflag : row.bigram = 1
        · simpa [buildStep, hrow, hflag] using h1
        · rw [show (buildStep acc row).1 =
              Dict.insert acc.1 (String.mk (trimChars (lowerChars w.data))) row.rating by
            simp [buildStep, hrow, hflag]]
          exact Dict.insert_keys_nodup _ _ _ h1
    · rcases hrow : row.word with _ | w
      · simpa [buildStep, hrow] using h2
      · by_cases hflag : row.bigram = 1
        · rw [show (buildStep acc row).2 =
              Dict.insert acc.2 (String.mk (trimChars (lowerChars w.data))) row.rating by
            simp [buildStep, hrow, hflag]]
          exact Dict.insert_keys_nodup _ _ _ h2
        · simpa [buildStep, hrow, hflag] using h2

/-- C5 counterexample to the claim as stated: a phrase listed once with
flag 0 and once with flag 1 ends up as a key of *both* mappings — after
building from the two rows ("cat", 3, flag 0) and ("cat", 4, flag 1),
"cat" is found in the unigram mapping and in the bigram mapping. -/
theorem C5_counterexample :
    (Dict.lookup (build_lexicon [⟨some "cat", 3, 0⟩, ⟨some "cat", 4, 1⟩]).1 "cat").isSome ∧
    (Dict.lookup (build_lexicon [⟨some "cat", 3, 0⟩, ⟨some "cat", 4, 1⟩]).2 "cat").isSome := by
  decide

/-- C5 (amended): after build completes, each phrase appears at most
once as a key *within each individual mapping* (the key lists of the
unigram mapping and of the bigram mapping are each duplicate-free); a
phrase routed once with each flag value appears in both mappings, so
cross-mapping exclusivity does not hold. -/
theorem C5_keys_unique (rows : List RatingRow) :
    ((build_lexicon rows).1.map Prod.fst).Nodup ∧
    ((build_lexicon rows).2.map Prod.fst).Nodup :=
  foldl_keys_nodup rows ([], []) List.nodup_nil List.nodup_nil

/-- C6: last duplicate wins, in either mapping: for a row with phrase
`w`, rating `r` and flag `f`, if no later row writes the same normalized
key to the same mapping, then the mapping the flag routes to (the bigram
mapping when f = 1, the unigram mapping otherwise) stores rating `r`
under the normalized phrase — so among several rows routing the same key
to the same mapping, the last one in input order determines the stored
rating. -/
theorem C6_last_duplicate_wins (rows1 rows2 : List RatingRow) (w : String) (r : ℚ) (f : Int)
    (h : ∀ row ∈ rows2, rowWrite row ≠ rowWrite ⟨some w, r, f⟩) :
    Dict.lookup
      (if f = 1 then (build_lexicon (rows1 ++ ⟨some w, r, f⟩ :: rows2)).2
       else (build_lexicon (rows1 ++ ⟨some w, r, f⟩ :: rows2)).1)
      (String.mk (trimChars (lowerChars w.data))) = some r := by
  by_cases hf : f = 1
  · rw [if_pos hf]
    unfold build_lexicon
    rw [List.foldl_append, List.foldl_cons]
    rw [foldl_lookup_snd_untouched rows2 _ _ ?hr2]
    case hr2 =>
      intro row hrow
      rcases hrw : row.word with _ | w2
      · right
        simp [rowKey, hrw]
      · by_cases hb : row.bigram = 1
        · right
          intro hk
          apply h row hrow
          rw [rowKey, hrw] at hk
          simp only [Option.some.injEq] at hk
          rw [rowWrite, hrw, rowWrite]
          simp [hk, hb, hf]
        · left
          exact hb
    have hstep : buildStep (List.foldl buildStep ([], []) rows1) ⟨some w, r, f⟩ =
        ((List.foldl buildStep ([], []) rows1).1,
         Dict.insert (List.foldl buildStep ([], []) rows1).2
           (String.mk (trimChars (lowerChars w.data))) r) := by
      simp [buildStep, hf]
    rw [hstep]
    exact Dict.lookup_insert_self _ _ _
  · rw [if_neg hf]
    unfold build_lexicon
    rw [List.foldl_append, List.foldl_cons]
    rw [foldl_lookup_fst_untouched rows2 _ _ ?hr1]
    case hr1 =>
      intro row hrow
      rcases hrw : row.word with _ | w2
      · right
        simp [rowKey, hrw]
      · by_cases hb : row.bigram = 1
        · left
          exact hb
        · right
          intro hk
          apply h row hrow
          rw [rowKey, hrw] at hk
          simp only [Option.some.injEq] at hk
          rw [rowWrite, hrw, rowWrite]
          simp [hk, hb, hf]
    have hstep : buildStep (List.foldl buildStep ([], []) rows1) ⟨some w, r, f⟩ =
        (Dict.insert (List.foldl buildStep ([], []) rows1).1
           (String.mk (trimChars (lowerChars w.data))) r,
         (List.foldl buildStep ([], []) rows1).2) := by
      simp [buildStep, hf]
    rw [hstep]
    exact Dict.lookup_insert_self _ _ _

/-- C6 witness: the theorem applied once per mapping — two rows both
writing unigram "cat" (ratings 3 then 4) store 4, and two rows both
writing bigram "big dog" (ratings 5 then 6) store 6: in each mapping the
last duplicate's rating wins. -/
theorem C6_witness :
    Dict.lookup (build_lexicon [⟨some "cat", 3, 0⟩, ⟨some "cat", 4, 0⟩]).1 "cat" =
      some 4 ∧
    Dict.lookup (build_lexicon [⟨some "big dog", 5, 1⟩, ⟨some "big dog", 6, 1⟩]).2 "big dog" =
      some 6 := by
  constructor
  · have h := C6_last_duplicate_wins [⟨some "cat", 3, 0⟩] [] "cat" 4 0
      (by intro row hrow; cases hrow)
    rw [if_neg (by decide)] at h
    have hk : String.mk (trimChars (lowerChars "cat".data)) = "cat" := by decide
    rw [hk] at h
    simpa using h
  · have h := C6_last_duplicate_wins [⟨some "big dog", 5, 1⟩] [] "big dog" 6 1
      (by intro row hrow; cases hrow)
    rw [if_pos rfl] at h
    have hk : String.mk (trimChars (lowerChars "big dog".data)) = "big dog" := by decide
    rw [hk] at h
    simpa using h

/-- C7 counterexample to the claim as stated: a row whose phrase is the
*empty string* is not dropped — the builder only drops missing (NaN)
phrases, so the row ("", 3, flag 0) contributes the empty-string key to
the unigram mapping. -/
theorem C7_counterexample :
    build_lexicon [⟨some "", 3, 0⟩] = ([("", 3)], []) ∧
    Dict.lookup (build_lexicon [⟨some "", 3, 0⟩]).1 "" = some 3 := by
  decide

/-- C7 (amended): rows with a *missing* phrase are dropped and
contribute no entry (an empty-string phrase, by contrast, is kept and
contributes the empty-string key); every key that ends up in either
mapping is lowercase and whitespace-stripped, and its rating is the
rating of some contributing row, carried through unmodified. -/
theorem C7_builder_preprocessing (rows1 rows2 : List RatingRow) (r : ℚ) (f : Int)
    (rows : List RatingRow) (q : String × ℚ)
    (hq : q ∈ (build_lexicon rows).1 ++ (build_lexicon rows).2) :
    build_lexicon (rows1 ++ ⟨none, r, f⟩ :: rows2) = build_lexicon (rows1 ++ rows2) ∧
    lowerChars q.1.data = q.1.data ∧ trimChars q.1.data = q.1.data ∧
    ∃ row ∈ rows, ∃ w, row.word = some w ∧
      q.1 = String.mk (trimChars (lowerChars w.data)) ∧ q.2 = row.rating := by
  constructor
  · unfold build_lexicon
    rw [List.foldl_append, List.foldl_append, List.foldl_cons]
    rfl
  · have hmem : ∃ row ∈ rows, ∃ w, row.word = some w ∧
        q = (String.mk (trimChars (lowerChars w.data)), row.rating) := by
      rw [List.mem_append] at hq
      rcases hq with hq | hq
      · rcases foldl_mem_fst rows ([], []) q hq with h | h
        · cases h
        · exact h
      · rcases foldl_mem_snd rows ([], []) q hq with h | h
        · cases h
        · exact h
    obtain ⟨row, hrow, w, hw, hqeq⟩ := hmem
    have h1 : q.1 = String.mk (trimChars (lowerChars w.data)) := by rw [hqeq]
    have h2 : q.2 = row.rating := by rw [hqeq]
    have hdata : q.1.data = trimChars (lowerChars w.data) := by rw [h1]
    refine ⟨?_, ?_, row, hrow, w, hw, h1, h2⟩
    · rw [hdata]
      exact lowerChars_trimChars_lowerChars w.data
    · rw [hdata]
      exact trimChars_trimChars (lowerChars w.data)

/-- C7 witness: the amended theorem applied to a dropped missing-phrase
row, and to the single entry produced by the row (" CaT ", 3, flag 0),
whose key normalizes to "cat" with the rating 3 unmodified. -/
theorem C7_witness :
    build_lexicon ([] ++ ⟨none, 7, 0⟩ :: []) = build_lexicon ([] ++ []) ∧
    lowerChars ("cat" : String).data = ("cat" : String).data ∧
    trimChars ("cat" : String).data = ("cat" : String).data ∧
    ∃ row ∈ [(⟨some " CaT ", 3, 0⟩ : RatingRow)], ∃ w, row.word = some w ∧
      ("cat" : String) = String.mk (trimChars (lowerChars w.data)) ∧ (3 : ℚ) = row.rating :=
  C7_builder_preprocessing [] [] 7 0 [⟨some " CaT ", 3, 0⟩] ("cat", 3) (by decide)
